import Mathlib

/-!
Verification of the PageRank corpus estimator.

Shallow embedding of `src/pagerank/pagerank.py`. Python `dict`s are modelled
as association lists in insertion order (Python dictionaries preserve
insertion order and have unique keys), page identifiers as natural numbers,
and Python floats as exact rationals (`ℚ`). Python's `set` values are
modelled as duplicate-free lists. The unbounded `while True` loop of
`iterate_pagerank` is modelled with explicit fuel: `none` means the loop has
not yet stopped after the given number of rounds.
-/

namespace PageRankModel

/-- A link graph (the Python `corpus` dict mapping each page to the set of
pages it links to), as an association list. -/
abbrev Corpus := List (ℕ × List ℕ)

/-- The keys of the corpus dict, in insertion order (`for p in corpus`). -/
def pagesOf (c : Corpus) : List ℕ := c.map Prod.fst

/-- Dict access `corpus[page]`: the first entry with the given key.
(Python raises `KeyError` on a missing key; the algorithms below only ever
access keys that are present, so the `[]` default is never reached there.) -/
def linksOf (c : Corpus) (p : ℕ) : List ℕ :=
  (((c.find? (fun e => e.1 == p))).map Prod.snd).getD []

/-- Dict access for a rational-valued dict (`pagerank[q]`, `model[q]`). -/
def lookup (m : List (ℕ × ℚ)) (p : ℕ) : ℚ :=
  (((m.find? (fun e => e.1 == p))).map Prod.snd).getD 0

/-- Well-formedness of a corpus, exactly the structure a Python corpus dict
built by `crawl` has: distinct keys (dict), duplicate-free neighbour lists
(sets), and the closed-universe invariant (every neighbour is a key). -/
def WF (c : Corpus) : Prop :=
  (pagesOf c).Nodup ∧ ∀ e ∈ c, e.2.Nodup ∧ ∀ l ∈ e.2, l ∈ pagesOf c

instance (c : Corpus) : Decidable (WF c) := by
  unfold WF; infer_instance

/-! ## `transition_model` -/

/-- Value given to page `p` in the linked branch of `transition_model`:
base probability `(1 - damping_factor) / total_pages`, plus
`damping_factor / num_links` when `p` is one of the linked pages. -/
def transitionValue (total_pages : ℚ) (linked : List ℕ) (damping_factor : ℚ)
    (p : ℕ) : ℚ :=
  (1 - damping_factor) / total_pages +
    if p ∈ linked then damping_factor / (linked.length : ℚ) else 0

/-- `transition_model(corpus, page, damping_factor)`: if `corpus[page]` is
non-empty, each page gets the base probability plus the link bonus for the
linked pages; otherwise ("if no links, treat as linking to all pages") every
page gets `1 / total_pages`. -/
def transition_model (c : Corpus) (page : ℕ) (damping_factor : ℚ) :
    List (ℕ × ℚ) :=
  if (linksOf c page).isEmpty then
    c.map (fun e => (e.1, 1 / (c.length : ℚ)))
  else
    c.map (fun e =>
      (e.1, transitionValue (c.length : ℚ) (linksOf c page) damping_factor e.1))

/-! ## `sample_pagerank` -/

/-- `random.choices(population, weights)[0]`, modelled by
cumulative-distribution inversion: walk the entries subtracting weights from
the draw `r` until the draw falls inside an entry's weight (Python draws
`r = random() * total ∈ [0, total)` and bisects the cumulative weights,
clamping to the last element). Which element comes out depends on `r`; it is
always an element of the population. -/
def weightedChoice : List (ℕ × ℚ) → ℚ → ℕ
  | [], _ => 0
  | [(p, _)], _ => p
  | (p, w) :: e :: rest, r => if r < w then p else weightedChoice (e :: rest) (r - w)

/-- `page_counts[page] += 1` on a counter dict. -/
def increment (counts : List (ℕ × ℕ)) (page : ℕ) : List (ℕ × ℕ) :=
  counts.map (fun e => if e.1 = page then (e.1, e.2 + 1) else e)

/-- The sampling loop of `sample_pagerank`: `k` iterations remain, `page` is
the current page, `counts` the visit counters; each round increments the
current page's counter and draws the next page from the transition model
with the random draw `draws k`. -/
def sampleLoop (c : Corpus) (damping_factor : ℚ) (draws : ℕ → ℚ) :
    ℕ → ℕ → List (ℕ × ℕ) → List (ℕ × ℕ)
  | 0, _, counts => counts
  | Nat.succ k, page, counts =>
      sampleLoop c damping_factor draws k
        (weightedChoice (transition_model c page damping_factor) (draws k))
        (increment counts page)

/-- `sample_pagerank(corpus, damping_factor, n)`. The random source is made
explicit: `start` indexes the uniformly chosen initial page
(`random.choice` picks `keys[⌊random()·N⌋]`), and `draws` supplies the
per-step draws for the weighted choices. Counters start at zero for every
page and at the end each counter is divided by `n`. -/
def sample_pagerank (c : Corpus) (damping_factor : ℚ) (n : ℕ) (start : ℕ)
    (draws : ℕ → ℚ) : List (ℕ × ℚ) :=
  let page_counts := c.map (fun e => (e.1, 0))
  let page := (pagesOf c).getD (start % c.length) 0
  let final := sampleLoop c damping_factor draws n page page_counts
  final.map (fun e => (e.1, (e.2 : ℚ) / (n : ℚ)))

/-! ## `iterate_pagerank` -/

/-- One term of the inner sum of `iterate_pagerank`: the contribution of the
entry `q` (a potential linker, with its link set `q.2`) to `page`'s new
rank: `pagerank[q]/N` when `q` has no links, `pagerank[q]/len(links)` when
`q` links to `page`, and nothing otherwise. -/
def linkContribution (N : ℚ) (pr : List (ℕ × ℚ)) (q : ℕ × List ℕ)
    (page : ℕ) : ℚ :=
  if q.2.isEmpty then lookup pr q.1 / N
  else if page ∈ q.2 then lookup pr q.1 / (q.2.length : ℚ)
  else 0

/-- `new_rank[page] = (1 - damping_factor) / N + damping_factor * total`,
with `total` the sum of the contributions of all potential linkers. -/
def newRankValue (c : Corpus) (damping_factor : ℚ) (pr : List (ℕ × ℚ))
    (page : ℕ) : ℚ :=
  (1 - damping_factor) / (c.length : ℚ) +
    damping_factor * (c.map (fun q => linkContribution (c.length : ℚ) pr q page)).sum

/-- One round of `iterate_pagerank`: the freshly computed `new_rank` dict. -/
def newRank (c : Corpus) (damping_factor : ℚ) (pr : List (ℕ × ℚ)) :
    List (ℕ × ℚ) :=
  c.map (fun e => (e.1, newRankValue c damping_factor pr e.1))

/-- Python's `abs`, written so that it evaluates by kernel reduction. -/
def ratAbs (x : ℚ) : ℚ := if x < 0 then -x else x

/-- The convergence test:
`all(abs(new_rank[page] - pagerank[page]) < 0.001 for page in pagerank)`. -/
def converged (pr new : List (ℕ × ℚ)) : Bool :=
  (pr.map Prod.fst).all
    (fun page => ratAbs (lookup new page - lookup pr page) < 1/1000)

/-- The `while True` loop of `iterate_pagerank`, with explicit fuel: compute
`new_rank`; if the convergence test passes, stop with the current
`pagerank` (the freshly computed round is discarded), otherwise adopt
`new_rank` and repeat. `none` means the loop is still running after `fuel`
rounds — the Python loop has no iteration cap of its own. -/
def iterLoop (c : Corpus) (damping_factor : ℚ) :
    ℕ → List (ℕ × ℚ) → Option (List (ℕ × ℚ))
  | 0, _ => none
  | Nat.succ fuel, pr =>
      let new := newRank c damping_factor pr
      if converged pr new then some pr else iterLoop c damping_factor fuel new

/-- The initial rank dict `{page: 1/N for page in corpus}`. -/
def initialRank (c : Corpus) : List (ℕ × ℚ) :=
  c.map (fun e => (e.1, 1 / (c.length : ℚ)))

/-- The final normalization: divide every rank by `sum(pagerank.values())`. -/
def normalize (pr : List (ℕ × ℚ)) : List (ℕ × ℚ) :=
  let total_sum := (pr.map Prod.snd).sum
  pr.map (fun e => (e.1, e.2 / total_sum))

/-- `iterate_pagerank(corpus, damping_factor)`: run the loop from the
uniform initial ranks, then normalize the mapping the loop stopped with. -/
def iterate_pagerank (c : Corpus) (damping_factor : ℚ) (fuel : ℕ) :
    Option (List (ℕ × ℚ)) :=
  (iterLoop c damping_factor fuel (initialRank c)).map normalize

/-! ## `crawl` -/

/-- `crawl(directory)`, modelled from after its I/O step: `raw` lists, for
each `.html` file in the directory, the href targets the regular expression
extracts from it (`os.listdir`, file reading and `re.findall` are the I/O
boundary). First pass: `pages[filename] = set(links) - {filename}`; second
pass: keep only links that are themselves keys of `pages`. -/
def crawlFirstPass (raw : List (ℕ × List ℕ)) : Corpus :=
  raw.map (fun e => (e.1, e.2.dedup.filter (fun l => l ≠ e.1)))

def crawl (raw : List (ℕ × List ℕ)) : Corpus :=
  (crawlFirstPass raw).map (fun e =>
    (e.1, e.2.filter (fun l => ((crawlFirstPass raw).map Prod.fst).contains l)))

/-! ## Auxiliary definitions used by the statements and witnesses -/

/-- A rank/count dict has the shape a Python dict comprehension over the
corpus produces: one entry per corpus entry, in corpus order, whose value
depends only on the key. Every dict `iterate_pagerank` builds has this
shape. -/
def keyShaped (c : Corpus) (m : List (ℕ × ℚ)) : Prop :=
  ∃ f : ℕ → ℚ, m = c.map (fun e => (e.1, f e.1))

/-- Total number of visits recorded in the sampling counters. -/
def countsSum (counts : List (ℕ × ℕ)) : ℕ := (counts.map Prod.snd).sum

/-- A small concrete well-formed graph used by the witnesses:
`{0: {1}, 1: {0, 2}, 2: {}}`. -/
def exGraph : Corpus := [(0, [1]), (1, [0, 2]), (2, [])]

/-- The graph `{0: {1}, 1: {0}, 2: {1}}`: with damping factor 1 the
iteration on it oscillates forever between `oscA` and `oscB`. -/
def oscGraph : Corpus := [(0, [1]), (1, [0]), (2, [1])]

/-- First state of the oscillation of `oscGraph` at damping 1. -/
def oscA : List (ℕ × ℚ) := [(0, 1/3), (1, 2/3), (2, 0)]

/-- Second state of the oscillation of `oscGraph` at damping 1. -/
def oscB : List (ℕ × ℚ) := [(0, 2/3), (1, 1/3), (2, 0)]

/-! ## Basic lemmas about the dict model -/

theorem pagesOf_cons (e : ℕ × List ℕ) (t : Corpus) :
    pagesOf (e :: t) = e.1 :: pagesOf t := rfl

theorem lookup_nil (p : ℕ) : lookup [] p = 0 := rfl

theorem lookup_cons (a : ℕ × ℚ) (m : List (ℕ × ℚ)) (p : ℕ) :
    lookup (a :: m) p = if a.1 = p then a.2 else lookup m p := by
  by_cases h : a.1 = p <;> simp [lookup, List.find?_cons, h]

/-- Looking up `p` in a dict built by iterating over the corpus and giving
each key a value that depends only on the key. -/
theorem lookup_map_key (c : Corpus) (f : ℕ → ℚ) (p : ℕ) :
    lookup (c.map (fun e => (e.1, f e.1))) p =
      if p ∈ pagesOf c then f p else 0 := by
  induction c with
  | nil => simp [lookup, pagesOf]
  | cons a t ih =>
      rw [List.map_cons, lookup_cons]
      by_cases h : a.1 = p
      · simp [pagesOf, h]
      · have hne : ¬ p = a.1 := fun hc => h hc.symm
        rw [if_neg h, ih]
        show _ = if p ∈ pagesOf (a :: t) then f p else 0
        by_cases hm : p ∈ pagesOf t
        · rw [if_pos hm, if_pos (by rw [pagesOf_cons]; exact List.mem_cons_of_mem _ hm)]
        · rw [if_neg hm, if_neg ?_]
          rw [pagesOf_cons]
          intro hc
          rcases List.mem_cons.mp hc with hc | hc
          · exact hne hc
          · exact hm hc

theorem sum_map_add {α : Type} (l : List α) (f g : α → ℚ) :
    (l.map (fun x => f x + g x)).sum = (l.map f).sum + (l.map g).sum := by
  induction l with
  | nil => simp
  | cons a t ih => simp only [List.map_cons, List.sum_cons, ih]; ring

theorem sum_map_const {α : Type} (l : List α) (a : ℚ) :
    (l.map (fun _ => a)).sum = (l.length : ℚ) * a := by
  induction l with
  | nil => simp
  | cons x t ih =>
      simp only [List.map_cons, List.sum_cons, ih, List.length_cons]
      push_cast
      ring

theorem sum_map_mul {α : Type} (l : List α) (f : α → ℚ) (a : ℚ) :
    (l.map (fun x => a * f x)).sum = a * (l.map f).sum := by
  induction l with
  | nil => simp
  | cons x t ih => simp only [List.map_cons, List.sum_cons, ih]; ring

theorem sum_map_div {α : Type} (l : List α) (f : α → ℚ) (a : ℚ) :
    (l.map (fun x => f x / a)).sum = (l.map f).sum / a := by
  induction l with
  | nil => simp
  | cons x t ih => simp only [List.map_cons, List.sum_cons, ih]; ring

theorem sum_map_ite_mem (keys S : List ℕ) (a : ℚ) :
    (keys.map (fun q => if q ∈ S then a else 0)).sum =
      ((keys.filter (fun q => decide (q ∈ S))).length : ℚ) * a := by
  induction keys with
  | nil => simp
  | cons x t ih =>
      by_cases h : x ∈ S
      · simp only [List.map_cons, List.sum_cons, ih, List.filter_cons, h,
          decide_True, if_true, List.length_cons, if_pos]
        push_cast
        ring
      · simp only [List.map_cons, List.sum_cons, ih, List.filter_cons, h,
          decide_False, if_false, List.length_cons]
        simp [h]

/-- Two duplicate-free lists with the same members have the same length. -/
theorem length_filter_of_nodup (keys S : List ℕ) (hk : keys.Nodup)
    (hS : S.Nodup) (hsub : ∀ l ∈ S, l ∈ keys) :
    (keys.filter (fun q => decide (q ∈ S))).length = S.length := by
  have hperm : (keys.filter (fun q => decide (q ∈ S))).Perm S := by
    apply List.perm_of_nodup_nodup_toFinset_eq (hk.filter _) hS
    ext x
    simp only [List.mem_toFinset, List.mem_filter, decide_eq_true_eq]
    exact ⟨fun h => h.2, fun h => ⟨hsub x h, h⟩⟩
  exact hperm.length_eq

/-- Swapping two finite sums over lists. -/
theorem sum_map_comm {α β : Type} (l₁ : List α) (l₂ : List β) (g : α → β → ℚ) :
    (l₁.map (fun a => (l₂.map (fun b => g a b)).sum)).sum =
      (l₂.map (fun b => (l₁.map (fun a => g a b)).sum)).sum := by
  induction l₁ with
  | nil =>
      simp only [List.map_nil, List.sum_nil]
      have h0 := sum_map_const l₂ (0 : ℚ)
      simp only [mul_zero] at h0
      exact h0.symm
  | cons a t ih =>
      simp only [List.map_cons, List.sum_cons, ih]
      rw [← sum_map_add]

/-- On a dict with distinct keys, `corpus[e.1]` returns `e`'s own value. -/
theorem linksOf_entry (c : Corpus) (hnd : (pagesOf c).Nodup) :
    ∀ e ∈ c, linksOf c e.1 = e.2 := by
  induction c with
  | nil => intro e he; cases he
  | cons a t ih =>
      intro e he
      rcases List.mem_cons.mp he with rfl | ht
      · simp [linksOf, List.find?_cons]
      · have hne : a.1 ≠ e.1 := by
          intro hc
          have : e.1 ∈ pagesOf t := List.mem_map_of_mem Prod.fst ht
          rw [pagesOf_cons] at hnd
          exact (List.nodup_cons.mp hnd).1 (hc ▸ this)
        have := ih (List.nodup_cons.mp (pagesOf_cons a t ▸ hnd)).2 e ht
        simpa [linksOf, List.find?_cons, hne] using this

/-- The value sum of a dict built by mapping a key-only function over the
corpus. -/
theorem sum_values_map_key (c : Corpus) (f : ℕ → ℚ) :
    ((c.map (fun e => (e.1, f e.1))).map Prod.snd).sum =
      ((pagesOf c).map f).sum := by
  simp [pagesOf, List.map_map, Function.comp_def]

theorem keys_map_key (c : Corpus) (f : ℕ → ℚ) :
    (c.map (fun e => (e.1, f e.1))).map Prod.fst = pagesOf c := by
  simp [pagesOf, List.map_map, Function.comp_def]

/-! ## Lemmas about `transition_model` -/

/-- The distribution's keys are the graph's pages, in both branches. -/
theorem transition_model_keys (c : Corpus) (p : ℕ) (d : ℚ) :
    (transition_model c p d).map Prod.fst = pagesOf c := by
  rw [transition_model]
  by_cases h : (linksOf c p).isEmpty
  · rw [if_pos h]; exact keys_map_key c (fun _ => 1 / (c.length : ℚ))
  · rw [if_neg h]
    exact keys_map_key c (transitionValue (c.length : ℚ) (linksOf c p) d)

theorem lookup_transition_dead (c : Corpus) (p q : ℕ) (d : ℚ)
    (hdead : linksOf c p = []) (hq : q ∈ pagesOf c) :
    lookup (transition_model c p d) q = 1 / (c.length : ℚ) := by
  rw [transition_model, if_pos (List.isEmpty_iff.mpr hdead),
    lookup_map_key c (fun _ => 1 / (c.length : ℚ)) q, if_pos hq]

theorem lookup_transition_link (c : Corpus) (p q : ℕ) (d : ℚ)
    (hS : linksOf c p ≠ []) (hq : q ∈ pagesOf c) :
    lookup (transition_model c p d) q =
      transitionValue (c.length : ℚ) (linksOf c p) d q := by
  rw [transition_model, if_neg (fun h => hS (List.isEmpty_iff.mp h)),
    lookup_map_key c (transitionValue (c.length : ℚ) (linksOf c p) d) q,
    if_pos hq]

/-- The entry of a key of the corpus: its neighbour list is `linksOf`, and
well-formedness transfers to it. -/
theorem links_spec_of_mem (c : Corpus) (hwf : WF c) (p : ℕ)
    (hp : p ∈ pagesOf c) :
    (linksOf c p).Nodup ∧ ∀ l ∈ linksOf c p, l ∈ pagesOf c := by
  obtain ⟨e, he, hep⟩ := List.mem_map.mp hp
  have hlinks := linksOf_entry c hwf.1 e he
  rw [← hep, hlinks]
  exact hwf.2 e he

theorem cast_length_ne_zero (c : Corpus) (hne : c ≠ []) :
    ((c.length : ℚ)) ≠ 0 :=
  Nat.cast_ne_zero.mpr (fun h => hne (List.length_eq_zero.mp h))

/-- Values of `transition_model` sum to `1` exactly, on a well-formed
non-empty graph. -/
theorem sum_transition_values (c : Corpus) (p : ℕ) (d : ℚ) (hwf : WF c)
    (hne : c ≠ []) (hp : p ∈ pagesOf c) :
    ((transition_model c p d).map Prod.snd).sum = 1 := by
  have hN := cast_length_ne_zero c hne
  have hplen : (pagesOf c).length = c.length := by simp [pagesOf]
  rw [transition_model]
  by_cases hdead : (linksOf c p).isEmpty
  · rw [if_pos hdead, sum_values_map_key c (fun _ => 1 / (c.length : ℚ)),
      sum_map_const, hplen]
    field_simp
  · rw [if_neg hdead]
    have hSne : linksOf c p ≠ [] := fun h => hdead (List.isEmpty_iff.mpr h)
    obtain ⟨hSnd, hSsub⟩ := links_spec_of_mem c hwf p hp
    have hk : (((linksOf c p).length : ℚ)) ≠ 0 :=
      Nat.cast_ne_zero.mpr (fun h => hSne (List.length_eq_zero.mp h))
    rw [sum_values_map_key c (transitionValue (c.length : ℚ) (linksOf c p) d)]
    have hsplit : ((pagesOf c).map
        (transitionValue (c.length : ℚ) (linksOf c p) d)).sum =
        ((pagesOf c).map (fun _ => (1 - d) / (c.length : ℚ))).sum +
        ((pagesOf c).map (fun q =>
          if q ∈ linksOf c p then d / ((linksOf c p).length : ℚ) else 0)).sum := by
      rw [← sum_map_add]
      rfl
    rw [hsplit, sum_map_const, sum_map_ite_mem, hplen,
      length_filter_of_nodup (pagesOf c) (linksOf c p) hwf.1 hSnd hSsub]
    field_simp

/-! ## Claims C2, C3, C4: the transition model -/

/-- C2: for every non-empty graph, every page `p` that is a key of the
graph, and every damping factor `d` in `[0,1]`, the values of the
distribution returned by `transition_model(graph, p, d)` sum to exactly `1`
in exact arithmetic. -/
theorem claim_C2_transition_values_sum_one (c : Corpus) (p : ℕ) (d : ℚ)
    (hwf : WF c) (hne : c ≠ []) (hp : p ∈ pagesOf c)
    (hd0 : 0 ≤ d) (hd1 : d ≤ 1) :
    ((transition_model c p d).map Prod.snd).sum = 1 :=
  sum_transition_values c p d hwf hne hp

theorem claim_C2_witness :
    WF exGraph ∧ exGraph ≠ [] ∧ (1 : ℕ) ∈ pagesOf exGraph ∧
      (0 : ℚ) ≤ 17/20 ∧ (17/20 : ℚ) ≤ 1 ∧
      ((transition_model exGraph 1 (17/20)).map Prod.snd).sum = 1 :=
  ⟨by decide, by decide, by decide, by norm_num, by norm_num,
    claim_C2_transition_values_sum_one exGraph 1 (17/20) (by decide) (by decide)
      (by decide) (by norm_num) (by norm_num)⟩

/-- C3: for every non-empty graph with `N` pages, every page `p` with an
empty neighbour set, and every damping factor `d` in `[0,1]`,
`transition_model(graph, p, d)` is the uniform distribution: its keys are
all the graph's pages and every page (`p` included) gets exactly `1/N`,
independently of `d`. -/
theorem claim_C3_dead_end_uniform (c : Corpus) (p : ℕ) (d : ℚ)
    (hne : c ≠ []) (hdead : linksOf c p = []) (hd0 : 0 ≤ d) (hd1 : d ≤ 1) :
    (transition_model c p d).map Prod.fst = pagesOf c ∧
    ∀ q ∈ pagesOf c, lookup (transition_model c p d) q = 1 / (c.length : ℚ) :=
  ⟨transition_model_keys c p d,
    fun q hq => lookup_transition_dead c p q d hdead hq⟩

theorem claim_C3_witness :
    exGraph ≠ [] ∧ linksOf exGraph 2 = [] ∧ (0 : ℚ) ≤ 17/20 ∧ (17/20 : ℚ) ≤ 1 ∧
      (2 : ℕ) ∈ pagesOf exGraph ∧
      lookup (transition_model exGraph 2 (17/20)) 2 = 1 / 3 :=
  ⟨by decide, by decide, by norm_num, by norm_num, by decide, by
    have h := (claim_C3_dead_end_uniform exGraph 2 (17/20) (by decide)
      (by decide) (by norm_num) (by norm_num)).2 2 (by decide)
    simpa using h⟩

/-- C4: for every non-empty graph with `N` pages, every page `p` with a
non-empty neighbour set `S` of size `k`, and every damping factor `d` in
`[0,1]`: every non-neighbour gets exactly `(1−d)/N`, every neighbour gets
exactly `(1−d)/N + d/k`, the neighbour value is at least `(1−d)/N`, and it
is strictly greater than every non-neighbour's value whenever `d > 0`. -/
theorem claim_C4_linked_distribution (c : Corpus) (p : ℕ) (d : ℚ)
    (hwf : WF c) (hne : c ≠ []) (hp : p ∈ pagesOf c)
    (hS : linksOf c p ≠ []) (hd0 : 0 ≤ d) (hd1 : d ≤ 1) :
    (∀ q ∈ pagesOf c, q ∉ linksOf c p →
        lookup (transition_model c p d) q = (1 - d) / (c.length : ℚ)) ∧
    (∀ n ∈ linksOf c p,
        lookup (transition_model c p d) n =
          (1 - d) / (c.length : ℚ) + d / ((linksOf c p).length : ℚ)) ∧
    (∀ n ∈ linksOf c p,
        (1 - d) / (c.length : ℚ) ≤ lookup (transition_model c p d) n) ∧
    (0 < d → ∀ q ∈ pagesOf c, q ∉ linksOf c p → ∀ n ∈ linksOf c p,
        lookup (transition_model c p d) q < lookup (transition_model c p d) n) := by
  obtain ⟨hSnd, hSsub⟩ := links_spec_of_mem c hwf p hp
  have hk : (0 : ℚ) < ((linksOf c p).length : ℚ) := by
    have : 0 < (linksOf c p).length :=
      Nat.pos_of_ne_zero (fun h => hS (List.length_eq_zero.mp h))
    exact_mod_cast this
  have hnonneigh : ∀ q ∈ pagesOf c, q ∉ linksOf c p →
      lookup (transition_model c p d) q = (1 - d) / (c.length : ℚ) := by
    intro q hq hqn
    rw [lookup_transition_link c p q d hS hq, transitionValue, if_neg hqn,
      add_zero]
  have hneigh : ∀ n ∈ linksOf c p,
      lookup (transition_model c p d) n =
        (1 - d) / (c.length : ℚ) + d / ((linksOf c p).length : ℚ) := by
    intro n hn
    rw [lookup_transition_link c p n d hS (hSsub n hn), transitionValue,
      if_pos hn]
  refine ⟨hnonneigh, hneigh, fun n hn => ?_, fun hd q hq hqn n hn => ?_⟩
  · rw [hneigh n hn]
    have : 0 ≤ d / ((linksOf c p).length : ℚ) := div_nonneg hd0 hk.le
    linarith
  · rw [hnonneigh q hq hqn, hneigh n hn]
    have : 0 < d / ((linksOf c p).length : ℚ) := div_pos hd hk
    linarith

theorem claim_C4_witness :
    WF exGraph ∧ exGraph ≠ [] ∧ (1 : ℕ) ∈ pagesOf exGraph ∧
      linksOf exGraph 1 ≠ [] ∧ (0 : ℚ) ≤ 17/20 ∧ (17/20 : ℚ) ≤ 1 ∧
      lookup (transition_model exGraph 1 (17/20)) 0 =
        (1 - 17/20) / 3 + (17/20) / 2 :=
  ⟨by decide, by decide, by decide, by decide, by norm_num, by norm_num, by
    have h := (claim_C4_linked_distribution exGraph 1 (17/20) (by decide)
      (by decide) (by decide) (by decide) (by norm_num) (by norm_num)).2.1
      0 (by decide)
    simpa using h⟩

/-! ## Lemmas about `iterate_pagerank` -/

theorem keys_map_pair {β : Type} (c : Corpus) (f : ℕ → β) :
    (c.map (fun e => (e.1, f e.1))).map Prod.fst = pagesOf c := by
  simp [pagesOf, List.map_map, Function.comp_def]

theorem keys_map_entry {β γ : Type} (m : List (ℕ × β)) (g : ℕ × β → γ) :
    (m.map (fun e => (e.1, g e))).map Prod.fst = m.map Prod.fst := by
  simp [List.map_map, Function.comp_def]

theorem iterLoop_succ (c : Corpus) (d : ℚ) (fuel : ℕ) (pr : List (ℕ × ℚ)) :
    iterLoop c d (fuel + 1) pr =
      if converged pr (newRank c d pr) then some pr
      else iterLoop c d fuel (newRank c d pr) := rfl

theorem ratAbs_eq_abs (x : ℚ) : ratAbs x = |x| := by
  rw [ratAbs]
  by_cases h : x < 0
  · rw [if_pos h, abs_of_neg h]
  · rw [if_neg h, abs_of_nonneg (not_lt.mp h)]

theorem converged_iff (pr new : List (ℕ × ℚ)) :
    converged pr new = true ↔
      ∀ page ∈ pr.map Prod.fst,
        |lookup new page - lookup pr page| < 1/1000 := by
  simp [converged, List.all_eq_true, decide_eq_true_eq, ratAbs_eq_abs]

theorem lookup_newRank (c : Corpus) (d : ℚ) (pr : List (ℕ × ℚ)) (p : ℕ)
    (hp : p ∈ pagesOf c) :
    lookup (newRank c d pr) p = newRankValue c d pr p := by
  rw [newRank, lookup_map_key c (newRankValue c d pr) p, if_pos hp]

/-- The inner sum of a round, written as the specification writes it: a sum
over all pages `q` of the graph in terms of `q`'s link set `linksOf c q`. -/
theorem newRankValue_spec (c : Corpus) (d : ℚ) (pr : List (ℕ × ℚ)) (p : ℕ)
    (hnd : (pagesOf c).Nodup) :
    newRankValue c d pr p =
      (1 - d) / (c.length : ℚ) +
        d * ((pagesOf c).map (fun q =>
          if linksOf c q = [] then lookup pr q / (c.length : ℚ)
          else if p ∈ linksOf c q then
            lookup pr q / ((linksOf c q).length : ℚ)
          else 0)).sum := by
  rw [newRankValue]
  congr 1
  congr 1
  rw [pagesOf, List.map_map]
  apply congrArg List.sum
  apply List.map_congr_left
  intro e he
  have hl := linksOf_entry c hnd e he
  simp only [Function.comp_apply, hl, linkContribution]
  by_cases h2 : e.2.isEmpty
  · rw [if_pos h2, if_pos (List.isEmpty_iff.mp h2)]
  · rw [if_neg h2, if_neg (fun hc => h2 (List.isEmpty_iff.mpr hc))]

theorem keyShaped_initialRank (c : Corpus) : keyShaped c (initialRank c) :=
  ⟨fun _ => 1 / (c.length : ℚ), rfl⟩

theorem keyShaped_newRank (c : Corpus) (d : ℚ) (pr : List (ℕ × ℚ)) :
    keyShaped c (newRank c d pr) :=
  ⟨newRankValue c d pr, rfl⟩

theorem keyShaped_keys (c : Corpus) (m : List (ℕ × ℚ)) (h : keyShaped c m) :
    m.map Prod.fst = pagesOf c := by
  obtain ⟨f, rfl⟩ := h
  exact keys_map_pair c f

/-- For a dict of corpus shape, summing the looked-up values over the
corpus keys is summing the dict's values. -/
theorem keyShaped_lookup_sum (c : Corpus) (m : List (ℕ × ℚ))
    (h : keyShaped c m) :
    (c.map (fun q => lookup m q.1)).sum = (m.map Prod.snd).sum := by
  obtain ⟨f, rfl⟩ := h
  rw [sum_values_map_key c f, pagesOf, List.map_map]
  apply congrArg List.sum
  apply List.map_congr_left
  intro q hq
  have hq1 : q.1 ∈ pagesOf c := List.mem_map_of_mem Prod.fst hq
  rw [lookup_map_key c f q.1, if_pos hq1, Function.comp_apply]

/-- Mass conservation: one round maps value sum `s` to `(1−d) + d·s`. -/
theorem sum_newRank_values (c : Corpus) (d : ℚ) (pr : List (ℕ × ℚ))
    (hwf : WF c) (hne : c ≠ []) :
    ((newRank c d pr).map Prod.snd).sum =
      (1 - d) + d * (c.map (fun q => lookup pr q.1)).sum := by
  have hN := cast_length_ne_zero c hne
  have hplen : ((pagesOf c).length : ℚ) = (c.length : ℚ) := by simp [pagesOf]
  rw [newRank, sum_values_map_key c (newRankValue c d pr)]
  have hsplit : ((pagesOf c).map (newRankValue c d pr)).sum =
      ((pagesOf c).map (fun _ => (1 - d) / (c.length : ℚ))).sum +
      ((pagesOf c).map (fun p =>
        d * (c.map (fun q =>
          linkContribution (c.length : ℚ) pr q p)).sum)).sum := by
    rw [← sum_map_add]
    rfl
  rw [hsplit, sum_map_const, hplen,
    sum_map_mul (pagesOf c)
      (fun p => (c.map (fun q => linkContribution (c.length : ℚ) pr q p)).sum) d,
    sum_map_comm (pagesOf c) c
      (fun p q => linkContribution (c.length : ℚ) pr q p)]
  have hinner : c.map (fun q =>
      ((pagesOf c).map (fun p => linkContribution (c.length : ℚ) pr q p)).sum) =
      c.map (fun q => lookup pr q.1) := by
    apply List.map_congr_left
    intro q hq
    by_cases h2 : q.2.isEmpty
    · have hconst : (fun p => linkContribution (c.length : ℚ) pr q p) =
          fun _ : ℕ => lookup pr q.1 / (c.length : ℚ) := by
        funext p
        rw [linkContribution, if_pos h2]
      rw [hconst, sum_map_const, hplen]
      field_simp
    · have hL : ((q.2.length : ℚ)) ≠ 0 := by
        have : q.2 ≠ [] := fun hc => h2 (List.isEmpty_iff.mpr hc)
        exact Nat.cast_ne_zero.mpr (fun h => this (List.length_eq_zero.mp h))
      have hite : (fun p => linkContribution (c.length : ℚ) pr q p) =
          fun p : ℕ =>
            if p ∈ q.2 then lookup pr q.1 / (q.2.length : ℚ) else 0 := by
        funext p
        rw [linkContribution, if_neg h2]
      rw [hite, sum_map_ite_mem,
        length_filter_of_nodup (pagesOf c) q.2 hwf.1 (hwf.2 q hq).1
          (hwf.2 q hq).2]
      field_simp
  rw [hinner]
  field_simp

theorem sum_initialRank (c : Corpus) (hne : c ≠ []) :
    ((initialRank c).map Prod.snd).sum = 1 := by
  have hN := cast_length_ne_zero c hne
  have hplen : ((pagesOf c).length : ℚ) = (c.length : ℚ) := by simp [pagesOf]
  rw [initialRank, sum_values_map_key c (fun _ => 1 / (c.length : ℚ)),
    sum_map_const, hplen]
  field_simp

/-- The loop keeps the dict of corpus shape with value sum exactly `1`. -/
theorem iterLoop_preserves (c : Corpus) (d : ℚ) (hwf : WF c) (hne : c ≠ []) :
    ∀ fuel pr r, keyShaped c pr → (pr.map Prod.snd).sum = 1 →
      iterLoop c d fuel pr = some r →
      keyShaped c r ∧ (r.map Prod.snd).sum = 1 := by
  intro fuel
  induction fuel with
  | zero => intro pr r _ _ h; cases h
  | succ n ih =>
      intro pr r hks hsum h
      rw [iterLoop_succ] at h
      by_cases hc : converged pr (newRank c d pr)
      · rw [if_pos hc] at h
        cases h
        exact ⟨hks, hsum⟩
      · rw [if_neg hc] at h
        refine ih (newRank c d pr) r (keyShaped_newRank c d pr) ?_ h
        rw [sum_newRank_values c d pr hwf hne,
          keyShaped_lookup_sum c pr hks, hsum]
        ring

theorem normalize_keys (pr : List (ℕ × ℚ)) :
    (normalize pr).map Prod.fst = pr.map Prod.fst := by
  simp [normalize, List.map_map, Function.comp_def]

theorem sum_normalize_of_sum_one (pr : List (ℕ × ℚ))
    (h : (pr.map Prod.snd).sum = 1) :
    ((normalize pr).map Prod.snd).sum = 1 := by
  simp only [normalize, h, div_one, List.map_map]
  rw [show (Prod.snd ∘ fun e : ℕ × ℚ => (e.1, e.2)) = Prod.snd from rfl]
  exact h

/-- Whatever `iterate_pagerank` returns has the graph's pages as keys and
values summing to exactly `1`. -/
theorem iterate_pagerank_wellformed (c : Corpus) (d : ℚ) (fuel : ℕ)
    (r : List (ℕ × ℚ)) (hwf : WF c) (hne : c ≠ [])
    (h : iterate_pagerank c d fuel = some r) :
    r.map Prod.fst = pagesOf c ∧ (r.map Prod.snd).sum = 1 := by
  rw [iterate_pagerank] at h
  obtain ⟨pr, hpr, rfl⟩ := Option.map_eq_some'.mp h
  obtain ⟨hks, hsum⟩ := iterLoop_preserves c d hwf hne fuel (initialRank c) pr
    (keyShaped_initialRank c) (sum_initialRank c hne) hpr
  exact ⟨by rw [normalize_keys, keyShaped_keys c pr hks],
    sum_normalize_of_sum_one pr hsum⟩

/-! ## Lemmas about `sample_pagerank` -/

/-- A weighted choice always returns a member of the population. -/
theorem weightedChoice_mem : ∀ (m : List (ℕ × ℚ)) (r : ℚ), m ≠ [] →
    weightedChoice m r ∈ m.map Prod.fst
  | [], _, h => absurd rfl h
  | [(p, w)], r, _ => by simp [weightedChoice]
  | (p, w) :: e :: rest, r, _ => by
      by_cases h : r < w
      · simp [weightedChoice, h]
      · have hm := weightedChoice_mem (e :: rest) (r - w) (by simp)
        simp only [weightedChoice, h, if_false, List.map_cons,
          List.mem_cons] at hm ⊢
        tauto

theorem transition_model_ne_nil (c : Corpus) (p : ℕ) (d : ℚ)
    (hne : c ≠ []) : transition_model c p d ≠ [] := by
  intro h
  have hkeys := transition_model_keys c p d
  rw [h] at hkeys
  have : pagesOf c = [] := hkeys.symm
  exact hne (List.map_eq_nil_iff.mp this)

theorem increment_keys (counts : List (ℕ × ℕ)) (page : ℕ) :
    (increment counts page).map Prod.fst = counts.map Prod.fst := by
  rw [increment, List.map_map]
  apply List.map_congr_left
  intro e _
  by_cases h : e.1 = page <;> simp [Function.comp_def, h]

theorem increment_of_not_mem (counts : List (ℕ × ℕ)) (page : ℕ)
    (h : page ∉ counts.map Prod.fst) : increment counts page = counts := by
  induction counts with
  | nil => rfl
  | cons a t ih =>
      simp only [List.map_cons, List.mem_cons] at h
      push_neg at h
      have hne : a.1 ≠ page := fun hc => h.1 hc.symm
      show (if a.1 = page then (a.1, a.2 + 1) else a) :: increment t page = a :: t
      rw [if_neg hne, ih h.2]

/-- Each visit increments exactly one counter: the total count rises by
exactly `1` (the keys are distinct and the page is one of them). -/
theorem countsSum_increment (counts : List (ℕ × ℕ)) (page : ℕ)
    (hnd : (counts.map Prod.fst).Nodup) (hmem : page ∈ counts.map Prod.fst) :
    countsSum (increment counts page) = countsSum counts + 1 := by
  induction counts with
  | nil => cases hmem
  | cons a t ih =>
      rw [List.map_cons, List.nodup_cons] at hnd
      rw [List.map_cons] at hmem
      rcases List.mem_cons.mp hmem with h | h
      · have htail : page ∉ t.map Prod.fst := h ▸ hnd.1
        show countsSum
          ((if a.1 = page then (a.1, a.2 + 1) else a) :: increment t page) = _
        rw [if_pos h.symm, increment_of_not_mem t page htail]
        show (a.2 + 1) + (t.map Prod.snd).sum = (a.2 + (t.map Prod.snd).sum) + 1
        omega
      · have hne : a.1 ≠ page := fun hc => hnd.1 (hc ▸ h)
        show countsSum
          ((if a.1 = page then (a.1, a.2 + 1) else a) :: increment t page) = _
        rw [if_neg hne]
        show a.2 + countsSum (increment t page) = (a.2 + countsSum t) + 1
        rw [ih hnd.2 h]
        omega

/-- The sampling loop keeps the counter keys fixed and adds exactly one
visit per remaining sample. -/
theorem sampleLoop_spec (c : Corpus) (d : ℚ) (draws : ℕ → ℚ) (hne : c ≠ [])
    (hnd : (pagesOf c).Nodup) :
    ∀ (k page : ℕ) (counts : List (ℕ × ℕ)), page ∈ pagesOf c →
      counts.map Prod.fst = pagesOf c →
      (sampleLoop c d draws k page counts).map Prod.fst = pagesOf c ∧
      countsSum (sampleLoop c d draws k page counts) = countsSum counts + k := by
  intro k
  induction k with
  | zero => intro page counts _ hk; exact ⟨hk, rfl⟩
  | succ n ih =>
      intro page counts hp hk
      have hknext : (increment counts page).map Prod.fst = pagesOf c := by
        rw [increment_keys, hk]
      have hnext : weightedChoice (transition_model c page d) (draws n) ∈
          pagesOf c := by
        have hm := weightedChoice_mem (transition_model c page d) (draws n)
          (transition_model_ne_nil c page d hne)
        rwa [transition_model_keys] at hm
      obtain ⟨hk', hs'⟩ := ih _ _ hnext hknext
      refine ⟨hk', ?_⟩
      show countsSum (sampleLoop c d draws n _ (increment counts page)) = _
      rw [hs', countsSum_increment counts page (by rw [hk]; exact hnd)
        (by rw [hk]; exact hp)]
      omega

/-- What `sample_pagerank` returns has the graph's pages as keys and
values summing to exactly `1`, for any positive sample count and any
random draws. -/
theorem sample_pagerank_wellformed (c : Corpus) (d : ℚ) (n start : ℕ)
    (draws : ℕ → ℚ) (hwf : WF c) (hne : c ≠ []) (hn : 0 < n) :
    (sample_pagerank c d n start draws).map Prod.fst = pagesOf c ∧
    ((sample_pagerank c d n start draws).map Prod.snd).sum = 1 := by
  have hlen : 0 < c.length := List.length_pos.mpr hne
  have hplen : (pagesOf c).length = c.length := by simp [pagesOf]
  have hstart : (pagesOf c).getD (start % c.length) 0 ∈ pagesOf c := by
    have hidx : start % c.length < (pagesOf c).length := by
      rw [hplen]; exact Nat.mod_lt _ hlen
    rw [List.getD_eq_getElem?_getD, List.getElem?_eq_getElem hidx,
      Option.getD_some]
    exact List.getElem_mem hidx
  obtain ⟨hk, hs⟩ := sampleLoop_spec c d draws hne hwf.1 n
    ((pagesOf c).getD (start % c.length) 0)
    (c.map (fun e => (e.1, (0 : ℕ)))) hstart (keys_map_pair c (fun _ => 0))
  have hzero : countsSum (c.map (fun e => (e.1, (0 : ℕ)))) = 0 := by
    simp [countsSum, List.map_map, Function.comp_def]
  rw [hzero, Nat.zero_add] at hs
  have hnQ : ((n : ℚ)) ≠ 0 := Nat.cast_ne_zero.mpr (Nat.pos_iff_ne_zero.mp hn)
  constructor
  · show List.map Prod.fst ((sampleLoop c d draws n
      ((pagesOf c).getD (start % c.length) 0)
      (c.map (fun e => (e.1, (0 : ℕ))))).map
        (fun e => (e.1, (e.2 : ℚ) / (n : ℚ)))) = pagesOf c
    have hkm := keys_map_entry (β := ℕ)
      (sampleLoop c d draws n ((pagesOf c).getD (start % c.length) 0)
        (c.map (fun e => (e.1, (0 : ℕ)))))
      (fun e => ((e.2 : ℚ)) / (n : ℚ))
    exact hkm.trans hk
  · show (((sampleLoop c d draws n
      ((pagesOf c).getD (start % c.length) 0)
      (c.map (fun e => (e.1, (0 : ℕ))))).map
        (fun e => (e.1, (e.2 : ℚ) / (n : ℚ)))).map Prod.snd).sum = 1
    rw [List.map_map]
    show (List.map (fun e : ℕ × ℕ => (e.2 : ℚ) / (n : ℚ))
      (sampleLoop c d draws n ((pagesOf c).getD (start % c.length) 0)
        (c.map (fun e => (e.1, (0 : ℕ)))))).sum = 1
    have hdiv := sum_map_div
      (sampleLoop c d draws n ((pagesOf c).getD (start % c.length) 0)
        (c.map (fun e => (e.1, (0 : ℕ)))))
      (fun e : ℕ × ℕ => ((e.2 : ℚ))) ((n : ℚ))
    rw [hdiv]
    have hcast : (List.map (fun e : ℕ × ℕ => ((e.2 : ℚ)))
        (sampleLoop c d draws n ((pagesOf c).getD (start % c.length) 0)
          (c.map (fun e => (e.1, (0 : ℕ)))))).sum =
        ((countsSum (sampleLoop c d draws n
          ((pagesOf c).getD (start % c.length) 0)
          (c.map (fun e => (e.1, (0 : ℕ))))) : ℕ) : ℚ) := by
      rw [countsSum, Nat.cast_list_sum, List.map_map]
      rfl
    rw [hcast, hs]
    field_simp

/-! ## Claim C1: the iteration round and its stopping rule -/

/-- C1: on a graph satisfying the closed-universe invariant, each round
gives every page `p` the new rank `(1−d)/N + d·Σ_q contrib(q, p)`, where
`q` ranges over all pages and contributes `PR(q)/N` if it has no outbound
links, `PR(q)/L(q)` if it links to `p`, and `0` otherwise; and the loop
stops exactly when every page's rank changed by strictly less than `0.001`
between the previous and new round, otherwise the new ranks are adopted
and the round repeats. -/
theorem claim_C1_round_formula_and_stop (c : Corpus) (d : ℚ)
    (pr : List (ℕ × ℚ)) (p : ℕ) (hwf : WF c) (hp : p ∈ pagesOf c) :
    lookup (newRank c d pr) p =
      (1 - d) / (c.length : ℚ) +
        d * ((pagesOf c).map (fun q =>
          if linksOf c q = [] then lookup pr q / (c.length : ℚ)
          else if p ∈ linksOf c q then
            lookup pr q / ((linksOf c q).length : ℚ)
          else 0)).sum ∧
    (∀ fuel, iterLoop c d (fuel + 1) pr =
      if converged pr (newRank c d pr) then some pr
      else iterLoop c d fuel (newRank c d pr)) ∧
    (converged pr (newRank c d pr) = true ↔
      ∀ page ∈ pr.map Prod.fst,
        |lookup (newRank c d pr) page - lookup pr page| < 1/1000) :=
  ⟨(lookup_newRank c d pr p hp).trans (newRankValue_spec c d pr p hwf.1),
    fun fuel => iterLoop_succ c d fuel pr,
    converged_iff pr (newRank c d pr)⟩

theorem claim_C1_witness :
    WF exGraph ∧ (2 : ℕ) ∈ pagesOf exGraph ∧
      (lookup (newRank exGraph (17/20) (initialRank exGraph)) 2 =
        (1 - 17/20) / ((exGraph.length : ℕ) : ℚ) +
          (17/20) * ((pagesOf exGraph).map (fun q =>
            if linksOf exGraph q = [] then
              lookup (initialRank exGraph) q / ((exGraph.length : ℕ) : ℚ)
            else if 2 ∈ linksOf exGraph q then
              lookup (initialRank exGraph) q /
                ((linksOf exGraph q).length : ℚ)
            else 0)).sum ∧
      (∀ fuel, iterLoop exGraph (17/20) (fuel + 1) (initialRank exGraph) =
        if converged (initialRank exGraph)
            (newRank exGraph (17/20) (initialRank exGraph)) then
          some (initialRank exGraph)
        else iterLoop exGraph (17/20) fuel
          (newRank exGraph (17/20) (initialRank exGraph))) ∧
      (converged (initialRank exGraph)
          (newRank exGraph (17/20) (initialRank exGraph)) = true ↔
        ∀ page ∈ (initialRank exGraph).map Prod.fst,
          |lookup (newRank exGraph (17/20) (initialRank exGraph)) page -
            lookup (initialRank exGraph) page| < 1/1000)) :=
  ⟨by decide, by decide,
    claim_C1_round_formula_and_stop exGraph (17/20) (initialRank exGraph) 2
      (by decide) (by decide)⟩

/-! ## Claim C5: both estimators return well-formed rank mappings -/

/-- C5: on a well-formed non-empty graph, `sample_pagerank` (for every
positive sample count and every sequence of random draws) and
`iterate_pagerank` (whenever it returns) both return mappings whose key
set is exactly the graph's page list and whose values sum to exactly `1`
in exact arithmetic. -/
theorem claim_C5_rank_mappings_wellformed (c : Corpus) (d : ℚ)
    (hwf : WF c) (hne : c ≠ []) :
    (∀ (n start : ℕ) (draws : ℕ → ℚ), 0 < n →
      (sample_pagerank c d n start draws).map Prod.fst = pagesOf c ∧
      ((sample_pagerank c d n start draws).map Prod.snd).sum = 1) ∧
    (∀ (fuel : ℕ) (r : List (ℕ × ℚ)), iterate_pagerank c d fuel = some r →
      r.map Prod.fst = pagesOf c ∧ (r.map Prod.snd).sum = 1) :=
  ⟨fun n start draws hn =>
      sample_pagerank_wellformed c d n start draws hwf hne hn,
    fun fuel r h => iterate_pagerank_wellformed c d fuel r hwf hne h⟩

theorem claim_C5_witness :
    WF exGraph ∧ exGraph ≠ [] ∧ (0 : ℕ) < 3 ∧
      (sample_pagerank exGraph (17/20) 3 0 (fun _ => 0)).map Prod.fst =
        pagesOf exGraph ∧
      ((sample_pagerank exGraph (17/20) 3 0 (fun _ => 0)).map Prod.snd).sum
        = 1 :=
  ⟨by decide, by decide, by decide,
    (claim_C5_rank_mappings_wellformed exGraph (17/20) (by decide)
        (by decide)).1 3 0 (fun _ => 0) (by decide) |>.1,
    (claim_C5_rank_mappings_wellformed exGraph (17/20) (by decide)
        (by decide)).1 3 0 (fun _ => 0) (by decide) |>.2⟩

/-! ## Claim C6: determinism of the iterative estimator -/

/-- C6: `iterate_pagerank` is a pure function of its inputs — it uses no
random source, so two calls with identical graph, damping factor and fuel
return identical outputs. -/
theorem claim_C6_iterate_deterministic (c₁ c₂ : Corpus) (d₁ d₂ : ℚ)
    (fuel₁ fuel₂ : ℕ) (hc : c₁ = c₂) (hd : d₁ = d₂) (hf : fuel₁ = fuel₂) :
    iterate_pagerank c₁ d₁ fuel₁ = iterate_pagerank c₂ d₂ fuel₂ := by
  rw [hc, hd, hf]

theorem claim_C6_witness :
    iterate_pagerank exGraph (17/20) 100 = iterate_pagerank exGraph (17/20) 100 :=
  claim_C6_iterate_deterministic exGraph exGraph (17/20) (17/20) 100 100
    rfl rfl rfl

/-! ## Claim C10: the converged round returns the previous iterate -/

/-- C10: when the convergence test succeeds, the freshly computed round is
discarded: the loop stops with the previous round's mapping, and
`iterate_pagerank` returns that mapping divided by its own value sum; the
discarded and returned iterates differ by less than `0.001` per page
before normalization. -/
theorem claim_C10_returns_previous_round (c : Corpus) (d : ℚ)
    (pr : List (ℕ × ℚ)) (fuel : ℕ)
    (h : converged pr (newRank c d pr) = true) :
    iterLoop c d (fuel + 1) pr = some pr ∧
    (∀ f, iterate_pagerank c d f =
      (iterLoop c d f (initialRank c)).map normalize) ∧
    normalize pr = pr.map (fun e => (e.1, e.2 / (pr.map Prod.snd).sum)) ∧
    (∀ page ∈ pr.map Prod.fst,
      |lookup (newRank c d pr) page - lookup pr page| < 1/1000) := by
  refine ⟨?_, fun f => rfl, rfl, (converged_iff pr (newRank c d pr)).mp h⟩
  rw [iterLoop_succ, if_pos h]

theorem claim_C10_witness :
    converged [((0 : ℕ), (1 : ℚ))]
        (newRank [(0, [])] (17/20) [(0, 1)]) = true ∧
      iterLoop [(0, [])] (17/20) 1 [(0, 1)] = some [(0, 1)] :=
  ⟨by norm_num [converged, ratAbs, newRank, newRankValue, linkContribution,
      lookup_cons, lookup_nil],
    (claim_C10_returns_previous_round [(0, [])] (17/20) [(0, 1)] 0
      (by norm_num [converged, ratAbs, newRank, newRankValue,
        linkContribution, lookup_cons, lookup_nil])).1⟩

/-! ## Claim C7: no input validation at the estimators' entry points -/

/-- On the empty graph — an invalid input per the error taxonomy — the
iterative estimator returns an empty mapping instead of an error. -/
theorem iterate_empty_graph_returns :
    iterate_pagerank [] (17/20) 1 = some [] := rfl

/-- With damping factor `2`, outside `[0,1]`, the iterative estimator runs
to completion and returns a normal result. -/
theorem iterate_invalid_damping_returns :
    iterate_pagerank [(0, [])] 2 1 = some [(0, 1)] := by
  have hinit : initialRank [((0 : ℕ), ([] : List ℕ))] = [(0, 1)] := by
    norm_num [initialRank]
  have hnew : newRank [(0, [])] 2 [((0 : ℕ), (1 : ℚ))] = [(0, 1)] := by
    norm_num [newRank, newRankValue, linkContribution, lookup_cons,
      lookup_nil]
  have hconv : converged [((0 : ℕ), (1 : ℚ))] [((0 : ℕ), (1 : ℚ))] = true := by
    norm_num [converged, ratAbs, lookup_cons, lookup_nil]
  rw [iterate_pagerank, hinit, iterLoop_succ, hnew, if_pos hconv]
  show some (normalize [(0, 1)]) = some [(0, 1)]
  norm_num [normalize]

/-- With damping factor `2`, the sampling estimator also runs to
completion and returns a normal result. -/
theorem sample_invalid_damping_returns :
    sample_pagerank [(0, [])] 2 5 0 (fun _ => 0) = [(0, 1)] := by
  have h : sample_pagerank [(0, [])] 2 5 0 (fun _ => 0) =
      [(0, (((5 : ℕ)) : ℚ) / ((5 : ℕ) : ℚ))] := rfl
  rw [h]
  norm_num

/-- C7 counterexample: invalid inputs are not rejected at entry: on the
empty graph (invalid per the error taxonomy) `iterate_pagerank` silently
returns an empty mapping, and with damping factor `2` (outside `[0,1]`) it
runs to completion and returns a normal result — no fail-fast error
exists. -/
theorem claim_C7_counterexample :
    iterate_pagerank [] (17/20) 1 = some [] ∧
    iterate_pagerank [(0, [])] 2 1 = some [(0, 1)] :=
  ⟨iterate_empty_graph_returns, iterate_invalid_damping_returns⟩

/-- C7 amended: the estimators perform no validation at their entry
points: `iterate_pagerank` returns a normal result on the empty graph and
with a damping factor outside `[0,1]`, and `sample_pagerank` likewise
returns a normal result with a damping factor outside `[0,1]` — invalid
inputs produce ordinary return values, not errors. -/
theorem claim_C7_no_input_validation :
    iterate_pagerank [] (17/20) 1 = some [] ∧
    iterate_pagerank [(0, [])] 2 1 = some [(0, 1)] ∧
    sample_pagerank [(0, [])] 2 5 0 (fun _ => 0) = [(0, 1)] :=
  ⟨iterate_empty_graph_returns, iterate_invalid_damping_returns,
    sample_invalid_damping_returns⟩

/-! ## Claim C8: no guard against non-termination -/

theorem newRank_oscA : newRank oscGraph 1 oscA = oscB := by
  norm_num [oscGraph, oscA, oscB, newRank, newRankValue, linkContribution,
    lookup_cons, lookup_nil]

theorem newRank_oscB : newRank oscGraph 1 oscB = oscA := by
  norm_num [oscGraph, oscA, oscB, newRank, newRankValue, linkContribution,
    lookup_cons, lookup_nil]

theorem newRank_oscInit : newRank oscGraph 1 (initialRank oscGraph) = oscA := by
  norm_num [oscGraph, oscA, initialRank, newRank, newRankValue,
    linkContribution, lookup_cons, lookup_nil]

theorem converged_oscA : converged oscA oscB = false := by
  norm_num [oscA, oscB, converged, ratAbs, lookup_cons, lookup_nil]

theorem converged_oscB : converged oscB oscA = false := by
  norm_num [oscA, oscB, converged, ratAbs, lookup_cons, lookup_nil]

theorem converged_oscInit : converged (initialRank oscGraph) oscA = false := by
  norm_num [oscGraph, oscA, initialRank, converged, ratAbs, lookup_cons,
    lookup_nil]

/-- With damping `1` on `oscGraph`, the loop alternates between `oscA` and
`oscB` and never meets the convergence test, for any amount of fuel. -/
theorem oscLoop_runs_forever : ∀ fuel,
    iterLoop oscGraph 1 fuel oscA = none ∧
    iterLoop oscGraph 1 fuel oscB = none := by
  intro fuel
  induction fuel with
  | zero => exact ⟨rfl, rfl⟩
  | succ n ih =>
      constructor
      · rw [iterLoop_succ, newRank_oscA,
          if_neg (by rw [converged_oscA]; exact Bool.false_ne_true)]
        exact ih.2
      · rw [iterLoop_succ, newRank_oscB,
          if_neg (by rw [converged_oscB]; exact Bool.false_ne_true)]
        exact ih.1

/-- `iterate_pagerank` on `oscGraph` with damping `1` never terminates:
whatever the fuel, the loop is still running. -/
theorem iterate_oscGraph_none :
    ∀ fuel, iterate_pagerank oscGraph 1 fuel = none := by
  intro fuel
  cases fuel with
  | zero => rfl
  | succ n =>
      rw [iterate_pagerank, iterLoop_succ, newRank_oscInit,
        if_neg (by rw [converged_oscInit]; exact Bool.false_ne_true),
        (oscLoop_runs_forever n).1]
      rfl

/-- C8 counterexample: `iterate_pagerank` does not terminate on every
input: on the graph `{0: {1}, 1: {0}, 2: {1}}` with damping factor `1`
(the per-page change never falls below the threshold there), no amount of
fuel makes it return. -/
theorem claim_C8_counterexample :
    ¬ ∃ fuel r, iterate_pagerank oscGraph 1 fuel = some r := by
  rintro ⟨fuel, r, h⟩
  rw [iterate_oscGraph_none fuel] at h
  exact Option.noConfusion h

/-- C8 amended: `iterate_pagerank` has no guard against non-termination:
its loop stops only when the convergence test passes, and on the graph
`{0: {1}, 1: {0}, 2: {1}}` with damping factor `1` the test never passes,
so for every iteration bound the computation is still running. -/
theorem claim_C8_no_iteration_cap :
    ∀ fuel, iterate_pagerank oscGraph 1 fuel = none :=
  iterate_oscGraph_none

/-! ## Claim C9: the graph built by `crawl` satisfies the invariant -/

/-- C9: for every input, the link graph returned by `crawl` satisfies the
data-model invariant: every page appearing in a neighbour set is also a
key of the mapping, and no page's own identifier is in its own neighbour
set. -/
theorem claim_C9_crawl_invariant (raw : List (ℕ × List ℕ)) :
    ∀ e ∈ crawl raw,
      (∀ l ∈ e.2, l ∈ pagesOf (crawl raw)) ∧ e.1 ∉ e.2 := by
  intro e he
  rw [crawl] at he
  obtain ⟨a, ha, rfl⟩ := List.mem_map.mp he
  have hkeys : pagesOf (crawl raw) = (crawlFirstPass raw).map Prod.fst := by
    rw [pagesOf, crawl]
    exact keys_map_entry (crawlFirstPass raw)
      (fun e => e.2.filter
        (fun l => ((crawlFirstPass raw).map Prod.fst).contains l))
  constructor
  · intro l hl
    rw [List.mem_filter] at hl
    rw [hkeys]
    simpa [List.contains] using hl.2
  · intro hmem
    rw [List.mem_filter] at hmem
    obtain ⟨b, _, rfl⟩ := List.mem_map.mp ha
    have hfst := hmem.1
    rw [List.mem_filter] at hfst
    have hcontra : ((b.1 : ℕ)) ≠ b.1 := by simpa using hfst.2
    exact hcontra rfl

theorem claim_C9_witness :
    ((0 : ℕ), [1]) ∈ crawl [(0, [0, 1, 5]), (1, [2, 0])] ∧
      (∀ l ∈ [1], l ∈ pagesOf (crawl [(0, [0, 1, 5]), (1, [2, 0])])) ∧
      (0 : ℕ) ∉ ([1] : List ℕ) :=
  ⟨by decide,
    (claim_C9_crawl_invariant [(0, [0, 1, 5]), (1, [2, 0])] (0, [1])
      (by decide)).1,
    (claim_C9_crawl_invariant [(0, [0, 1, 5]), (1, [2, 0])] (0, [1])
      (by decide)).2⟩

end PageRankModel
